import Mathlib

/-!
# Verification of the Anythink case-conversion utilities and comments router

Shallow embedding of the repository's JavaScript sources:

* `src/few_shot_prompt.js` — `toCamelCase` (with case-boundary separation);
* `src/refined_prompt.js` — `toKebabCase` (final definition), `toCamelCase`,
  `toDotCase` (regex word tokenization, no case-boundary separation);
* `src/unnamed/part_000` — `toKebabCas` and its exported wrapper `toKebabCase`
  (NFKD + diacritic stripping, case-boundary separation, ASCII tokenization);
* `src/backend/routes/api/comments.js` — the GET / and DELETE /:id handlers.

Strings are modelled as lists of Unicode scalar values (`List Char`); JavaScript
values that can be passed to the conversion functions are modelled by `JSValue`,
and a throwing computation by `Except JSException`.
-/

namespace AnythinkCase

/-- JavaScript strings, modelled as lists of Unicode scalar values.  (Lone
surrogates and UTF-16 indexing subtleties are outside the model; every claim in
this development is settled on scalar-value sequences.) -/
abbrev Str := List Char

/-- Shorthand turning a Lean string literal into the `Str` model. -/
def strL (s : String) : Str := s.data

/-- The class `[A-Z]`, as tested by the source regexes. -/
def isUpperA (c : Char) : Bool := 65 ≤ c.toNat && c.toNat ≤ 90

/-- The class `[a-z]`. -/
def isLowerA (c : Char) : Bool := 97 ≤ c.toNat && c.toNat ≤ 122

/-- The class `[0-9]`. -/
def isDigitA (c : Char) : Bool := 48 ≤ c.toNat && c.toNat ≤ 57

/-- The class `[A-Za-z0-9]`: the character class of the ASCII fallback word regex
`/[A-Za-z0-9]+/g` and of the splitting regexes `/[^A-Za-z0-9]+/`. -/
def asciiAlnum (c : Char) : Bool := isUpperA c || isLowerA c || isDigitA c

/-- The class `[a-z0-9]`: first group of the case-boundary regex `/([a-z0-9])([A-Z])/g`. -/
def isLowerDigitA (c : Char) : Bool := isLowerA c || isDigitA c

/-- The character class `[\p{L}\p{N}]` of the Unicode-aware word regex
`/[\p{L}\p{N}]+/gu`.  Modelled exactly on the code points this development
evaluates it at: on ASCII it is exactly `[A-Za-z0-9]`; on the Latin-1
Supplement and Latin Extended-A blocks (U+00C0–U+017F) it is true except for
the two signs × (U+00D7) and ÷ (U+00F7); all remaining code points (other
scripts, combining marks such as U+0307, punctuation, symbols) are classified
as non-word characters, which is correct for every such code point appearing
in this file. -/
def uniWordChar (c : Char) : Bool :=
  if c.toNat < 128 then asciiAlnum c
  else if 0xC0 ≤ c.toNat && c.toNat ≤ 0x17F then
    !(c.toNat == 0xD7 || c.toNat == 0xF7)
  else false

/-- The whitespace class trimmed by `String.prototype.trim` (and split on by
`/\s+/`): ASCII whitespace, NBSP, the Unicode space separators, line/paragraph
separators and the BOM. -/
def jsWhitespace (c : Char) : Bool :=
  (9 ≤ c.toNat && c.toNat ≤ 13) || c.toNat == 32 || c.toNat == 0xA0 ||
  c.toNat == 0x1680 || (0x2000 ≤ c.toNat && c.toNat ≤ 0x200A) ||
  c.toNat == 0x2028 || c.toNat == 0x2029 || c.toNat == 0x202F ||
  c.toNat == 0x205F || c.toNat == 0x3000 || c.toNat == 0xFEFF

/-- Model of `String.prototype.trim`: drop leading and trailing whitespace. -/
def jsTrim (l : Str) : Str :=
  ((l.dropWhile jsWhitespace).reverse.dropWhile jsWhitespace).reverse

/-- Model of `String.prototype.toLowerCase`, code-point-wise.  Modelled exactly on the
code points this development exercises: the ASCII range (A–Z map to a–z), and
the Unicode SpecialCasing expansion of U+0130 (LATIN CAPITAL LETTER I WITH DOT
ABOVE), which lowercases to the two code points U+0069 U+0307.  Other
non-ASCII mappings are modelled as the identity (no claim here depends on
them). -/
def jsToLowerChar (c : Char) : Str :=
  if 65 ≤ c.toNat && c.toNat ≤ 90 then [Char.ofNat (c.toNat + 32)]
  else if c.toNat == 0x130 then [Char.ofNat 0x69, Char.ofNat 0x307]
  else [c]

/-- Model of `String.prototype.toLowerCase` on a string. -/
def jsLower (l : Str) : Str := l.flatMap jsToLowerChar

/-- Model of `String.prototype.toUpperCase` applied to a single character (as in
`lower.charAt(0).toUpperCase()`).  Modelled exactly on ASCII (a–z map to A–Z)
and on ß (U+00DF), whose uppercase is the two-letter string SS; identity on
the remaining code points (unexercised by the claims). -/
def jsToUpperChar (c : Char) : Str :=
  if 97 ≤ c.toNat && c.toNat ≤ 122 then [Char.ofNat (c.toNat - 32)]
  else if c.toNat == 0xDF then [Char.ofNat 0x53, Char.ofNat 0x53]
  else [c]

/-- The capitalization step shared by both `toCamelCase` implementations:
`lower.charAt(0).toUpperCase() + lower.slice(1)` applied to the lowercased
word — lowercase the whole word, then uppercase its first character. -/
def capitalizeJS (w : Str) : Str :=
  match jsLower w with
  | [] => []
  | c :: r => jsToUpperChar c ++ r

/-- Model of `Array.prototype.join(sep)`. -/
def jsJoin (sep : Str) : List Str → Str
  | [] => []
  | [w] => w
  | w :: ws => w ++ sep ++ jsJoin sep ws

/-- Scanner for the global regex match `str.match(/[p]+/g)`: walk the string
left to right accumulating the current run of `p`-characters in `acc`,
emitting the run when a non-`p` character (or the end) is reached.  `tokenize`
runs it with an empty accumulator; the result is the list of matches (`[]`
standing for the `null` no-match result). -/
def tokAux (p : Char → Bool) : Str → Str → List Str
  | [], acc => if acc.isEmpty then [] else [acc]
  | c :: cs, acc =>
    if p c then tokAux p cs (acc ++ [c])
    else if acc.isEmpty then tokAux p cs []
    else acc :: tokAux p cs []

/-- Model of `str.match(/[p]+/g)` for a character class `p`: the maximal runs of
`p`-characters of `str`, in order. -/
def tokenize (p : Char → Bool) (l : Str) : List Str := tokAux p l []

/-- Spec-shaped splitter, following the spec's words: cut the string at every
non-word character (every non-alphanumeric acts only as a separator), keeping
the — possibly empty — pieces between consecutive separators.  This is also the
model of `String.prototype.split` at separator positions. -/
def splitAtSeps (p : Char → Bool) : Str → List Str
  | [] => [[]]
  | c :: cs =>
    match splitAtSeps p cs with
    | [] => [[]]
    | w :: ws => if p c then (c :: w) :: ws else [] :: w :: ws

/-- The word list described by the spec: split at the non-word characters and
keep the nonempty pieces — the maximal contiguous runs of word characters, in
their original order, with no run ever split. -/
def maximalRuns (p : Char → Bool) (l : Str) : List Str :=
  (splitAtSeps p l).filter (fun w => !w.isEmpty)

/-- The global replace `.replace(/([a-z0-9])([A-Z])/g, '$1 $2')`: insert a
space between a lowercase letter or digit and an immediately following
uppercase letter.  Scanning character pairs left to right is equivalent to the
regex's non-overlapping global scan: after a match the regex resumes at the
uppercase character, which can never start a new match as group 1. -/
def sepLowerUpper : Str → Str
  | c :: d :: rest =>
    if isLowerDigitA c && isUpperA d then c :: ' ' :: sepLowerUpper (d :: rest)
    else c :: sepLowerUpper (d :: rest)
  | l => l

/-- The global replace `.replace(/([A-Z]+)([A-Z][a-z0-9])/g, '$1 $2')` (in
`part_000` the second group is `([A-Z][a-z0-9]+)`; both insert a space at the
same positions): insert a space between two uppercase letters when the second
is immediately followed by a lowercase letter or digit.  As above, the
pairwise scan coincides with the regex's global scan: a match consumes the
trailing lowercase/digit character, behind which no new match can begin before
the next such triple. -/
def sepAcronym : Str → Str
  | c :: d :: e :: rest =>
    if isUpperA c && isUpperA d && isLowerDigitA e then
      c :: ' ' :: sepAcronym (d :: e :: rest)
    else c :: sepAcronym (d :: e :: rest)
  | l => l

/-- Both case-boundary replaces of `few_shot_prompt.js` / `part_000`, in
source order. -/
def caseSeparate (l : Str) : Str := sepAcronym (sepLowerUpper l)

/-- Model of `s.normalize('NFKD').replace(/[̀-ͯ]/g, '')` from `part_000`:
NFKD-normalize, then delete the combining diacritical marks.  The NFKD
decomposition is modelled as the identity code-point map outside ASCII (on
ASCII it is the identity): no claim in this development evaluates the
decomposition of a composed character, and every theorem about `part_000`
holds for an arbitrary result of this step. -/
def nfkdStripDia (l : Str) : Str :=
  l.filter (fun c => !(0x300 ≤ c.toNat && c.toNat ≤ 0x36F))

/- ===================== refined_prompt.js ===================== -/

/-- Core of `refined_prompt.js`'s conversions, parameterized by the word
character class `p` selected at runtime (`/[\p{L}\p{N}]+/gu` when Unicode
property escapes are supported, `/[A-Za-z0-9]+/g` otherwise):
`String(value).trim()`, early return on the empty string, `str.match`, early
return on no match. -/
def refinedWords (p : Char → Bool) (l : Str) : List Str :=
  let str := jsTrim l
  if str.isEmpty then [] else tokenize p str

/-- Function `toKebabCase` of `refined_prompt.js` (the file's final—and therefore
effective—definition of that name), on the coerced string, with the word regex
as a parameter: `words.map((w) => w.toLowerCase()).join('-')`. -/
def toKebabCaseRP (p : Char → Bool) (l : Str) : Str :=
  match refinedWords p l with
  | [] => []
  | ws => jsJoin ['-'] (ws.map jsLower)

/-- Function `toCamelCase` of `refined_prompt.js` on the coerced string:
`first.toLowerCase()` then each remaining word lowercased with its first
character uppercased, joined with no separator. -/
def toCamelCaseRP (p : Char → Bool) (l : Str) : Str :=
  match refinedWords p l with
  | [] => []
  | w :: ws => jsLower w ++ (ws.map capitalizeJS).flatten

/-- Function `toDotCase` of `refined_prompt.js` on the coerced string:
`words.map((w) => w.toLowerCase()).join('.')`. -/
def toDotCaseRP (p : Char → Bool) (l : Str) : Str :=
  match refinedWords p l with
  | [] => []
  | ws => jsJoin ['.'] (ws.map jsLower)

/-- The word regex actually selected by `refined_prompt.js` at runtime: the
probe `new RegExp('\\p{L}', 'u')` succeeds on every runtime with Unicode
property escapes, selecting `/[\p{L}\p{N}]+/gu`.  Claim C7 relates this choice
to the ASCII fallback. -/
def toKebabCase_str (l : Str) : Str := toKebabCaseRP uniWordChar l

/-- Function `toCamelCase` of `refined_prompt.js` with the selected Unicode regex. -/
def toCamelCase_str (l : Str) : Str := toCamelCaseRP uniWordChar l

/-- Function `toDotCase` of `refined_prompt.js` with the selected Unicode regex. -/
def toDotCase_str (l : Str) : Str := toDotCaseRP uniWordChar l

/- ===================== few_shot_prompt.js ===================== -/

/-- The word list of `few_shot_prompt.js`'s `toCamelCase`: trim, separate
case boundaries, then `separated.split(/[^A-Za-z0-9]+/).filter(Boolean)`.
Splitting at each run of non-alphanumerics and dropping the (at most two,
leading/trailing) empty pieces produces exactly the pieces of the
per-character split with the empty pieces dropped, i.e. the maximal
`[A-Za-z0-9]` runs of the separated string. -/
def fewShotWords (l : Str) : List Str :=
  maximalRuns asciiAlnum (caseSeparate (jsTrim l))

/-- Function `toCamelCase` of `few_shot_prompt.js` on the coerced string: words joined
with the first lowercased and the rest capitalized. -/
def toCamelCaseFS_str (l : Str) : Str :=
  let s := jsTrim l
  if s.isEmpty then [] else
  match fewShotWords l with
  | [] => []
  | w :: ws => jsLower w ++ (ws.map capitalizeJS).flatten

/- ===================== src/unnamed/part_000 ===================== -/

/-- The token list of `part_000`'s `toKebabCas`: NFKD + diacritic strip, case
boundary separation, then
`.replace(/[^A-Za-z0-9]+/g, ' ').trim().split(/\s+/).filter(Boolean)`.
Replacing every non-alphanumeric run by a single space, trimming and splitting
on whitespace runs (dropping the empty piece a whitespace-only string leaves)
extracts exactly the maximal `[A-Za-z0-9]` runs of the spaced string. -/
def part000Words (l : Str) : List Str :=
  maximalRuns asciiAlnum (caseSeparate (nfkdStripDia l))

/-- Function `toKebabCas` of `part_000` on the coerced string (note: `String(input)`
is not trimmed there; the split/filter pipeline discards surrounding
whitespace instead): tokens lowercased and joined with '-'. -/
def toKebabCas_str (l : Str) : Str :=
  jsJoin ['-'] ((part000Words l).map jsLower)

/- ===================== JavaScript value level ===================== -/

/-- The JavaScript values the conversion functions can receive.  `symV` is
any Symbol, the one primitive whose `String(...)` coercion throws.  An object
is modelled by the outcome of its string coercion: `objV (some s)` is an
object whose `toString`/`valueOf` coercion yields the string `s`, and
`objV none` is an object whose coercion itself throws a TypeError (for
example a null-prototype object, or one whose `toString` throws).  Numbers
are omitted (no claim is settled on a number input); a number coerces without
throwing, like `objV (some s)`, differing only in the falsiness of `0` and
`NaN` under few_shot's `input || ''`, which no claim exercises. -/
inductive JSValue where
  | nullV
  | undefV
  | boolV (b : Bool)
  | strV (s : Str)
  | objV (coe : Option Str)
  | symV
deriving DecidableEq

/-- The TypeError raised by `String(symbol)` (and raised explicitly by
`part_000`'s exported wrapper). -/
inductive JSException where
  | typeError (msg : Str)
deriving DecidableEq

/-- Model of `String(value)`: string coercion, throwing on Symbols and on
objects whose own coercion throws. -/
def jsToString : JSValue → Except JSException Str
  | .nullV => .ok (strL "null")
  | .undefV => .ok (strL "undefined")
  | .boolV true => .ok (strL "true")
  | .boolV false => .ok (strL "false")
  | .strV s => .ok s
  | .objV (some s) => .ok s
  | .objV none => .error (.typeError (strL "Cannot convert object to primitive value"))
  | .symV => .error (.typeError (strL "Cannot convert a Symbol value to a string"))

/-- JavaScript falsiness of the modelled values (`input || ''`); every object
is truthy. -/
def jsFalsy : JSValue → Bool
  | .nullV => true
  | .undefV => true
  | .boolV b => !b
  | .strV s => s.isEmpty
  | .objV _ => false
  | .symV => false

/-- Function `toCamelCase(input)` of `few_shot_prompt.js` on a value:
`String(input || '')` then the string pipeline. -/
def toCamelCaseFS (v : JSValue) : Except JSException Str := do
  let s ← jsToString (if jsFalsy v then .strV [] else v)
  pure (toCamelCaseFS_str s)

/-- Function `toCamelCase(value)` of `refined_prompt.js` on a value: `value == null`
guard, then `String(value)` and the string pipeline (no try/catch in this
function). -/
def toCamelCaseV (v : JSValue) : Except JSException Str :=
  if v = .nullV ∨ v = .undefV then .ok [] else do
    let s ← jsToString v
    pure (toCamelCase_str s)

/-- Function `toKebabCase(value)` of `refined_prompt.js` (final definition, which has
no try/catch) on a value. -/
def toKebabCaseV (v : JSValue) : Except JSException Str :=
  if v = .nullV ∨ v = .undefV then .ok [] else do
    let s ← jsToString v
    pure (toKebabCase_str s)

/-- Function `toDotCase(value)` of `refined_prompt.js` on a value. -/
def toDotCaseV (v : JSValue) : Except JSException Str :=
  if v = .nullV ∨ v = .undefV then .ok [] else do
    let s ← jsToString v
    pure (toDotCase_str s)

/-- Function `toKebabCas(input)` of `part_000` on a value: `input == null` guard, then
`String(input)` (untrimmed) and the pipeline. -/
def toKebabCasV (v : JSValue) : Except JSException Str :=
  if v = .nullV ∨ v = .undefV then .ok [] else do
    let s ← jsToString v
    pure (toKebabCas_str s)

/-- The exported `toKebabCase(input)` wrapper of `part_000`: throws an
explicit TypeError on a Symbol, otherwise delegates to `toKebabCas`; its
try/catch rethrows TypeErrors (the only exception in the model) and swallows
others into `''`. -/
def toKebabCaseP000 (v : JSValue) : Except JSException Str :=
  if v = .symV then
    .error (.typeError (strL "toKebabCase: Symbol cannot be converted to a string"))
  else toKebabCasV v

instance : DecidableEq (Except JSException Str) := fun a b =>
  match a, b with
  | .ok x, .ok y =>
    if h : x = y then isTrue (by rw [h]) else isFalse (fun he => h (Except.ok.inj he))
  | .ok _, .error _ => isFalse (fun he => Except.noConfusion he)
  | .error _, .ok _ => isFalse (fun he => Except.noConfusion he)
  | .error x, .error y =>
    if h : x = y then isTrue (by rw [h]) else isFalse (fun he => h (Except.error.inj he))

/-- The joiner the spec describes for camelCase: the first word fully
lowercased, each subsequent word lowercased and its first character then
uppercased, concatenated with no separator. -/
def specJoinCamel : List Str → Str
  | [] => []
  | w :: ws => jsLower w ++ (ws.map capitalizeJS).flatten

/-- The joiner the spec describes for kebab-case and dot-case: every word
fully lowercased, joined with the style's separator. -/
def specJoinLower (sep : Char) (ws : List Str) : Str :=
  jsJoin [sep] (ws.map jsLower)

/-- Returns `true` iff `out` has no two adjacent occurrences of `sep`. -/
def noAdjSep (sep : Char) : Str → Bool
  | c :: d :: rest => !(c == sep && d == sep) && noAdjSep sep (d :: rest)
  | _ => true

/-- The output shape asserted for a separator-joined case style: no two
adjacent separators, and the string neither begins nor ends with the
separator. -/
def sepShape (sep : Char) (out : Str) : Prop :=
  noAdjSep sep out = true ∧ out.head? ≠ some sep ∧ out.getLast? ≠ some sep

/- ============== src/backend/routes/api/comments.js ============== -/

/-- A Comment document as the router handles it. -/
structure Comment where
  _id : Str
  text : Str
  author : Str
deriving DecidableEq

/-- The Mongoose-backed comment collection, the only persistent state the
routes touch. -/
abbrev CommentStore := List Comment

/-- Response bodies produced by the comments router. -/
inductive RespBody where
  | errorMsg (error : Str)
  | deletedMsg (message : Str) (comment : Comment)
  | commentList (comments : List Comment)
deriving DecidableEq

/-- An HTTP response: status code and JSON body. -/
structure HttpResp where
  status : Nat
  body : RespBody
deriving DecidableEq

/-- Model of `mongoose.Types.ObjectId.isValid` on a string id.  Modelled from its
documented behavior for string arguments (the library itself is an external
dependency, not part of the repository): a 24-character hexadecimal string is
a valid ObjectId. -/
def isValidObjectId (id : Str) : Bool :=
  id.length == 24 && id.all (fun c =>
    isDigitA c || (97 ≤ c.toNat && c.toNat ≤ 102) || (65 ≤ c.toNat && c.toNat ≤ 70))

/-- Handler of `GET /` of the comments router: `Comment.find()` returns every document;
the handler sends it as JSON with status 200.  (The 500 branch fires only on a
database failure, which the store model does not exhibit.) -/
def handleGetComments (store : CommentStore) : HttpResp × CommentStore :=
  ({ status := 200, body := .commentList store }, store)

/-- Handler of `DELETE /:id` of the comments router: reject invalid ObjectIds with 400
and `{ error: "Invalid comment id" }`; otherwise `Comment.findByIdAndDelete`
removes the addressed document if present (404 with
`{ error: "Comment not found" }` when absent, 200 with the deleted document
when found). -/
def handleDeleteComment (id : Str) (store : CommentStore) : HttpResp × CommentStore :=
  if !isValidObjectId id then
    ({ status := 400, body := .errorMsg (strL "Invalid comment id") }, store)
  else
    match store.find? (fun c => c._id = id) with
    | none => ({ status := 404, body := .errorMsg (strL "Comment not found") }, store)
    | some c =>
      ({ status := 200, body := .deletedMsg (strL "Comment deleted successfully") c },
       store.eraseP (fun c => c._id = id))

/- ===================== character-level lemmas ===================== -/

theorem toNat_charOfNat {n : Nat} (h : n < 0xd800) : (Char.ofNat n).toNat = n := by
  have hv : n.isValidChar := Or.inl h
  rw [Char.ofNat, dif_pos hv]
  rfl

theorem uniWordChar_ascii {c : Char} (h : c.toNat < 128) :
    uniWordChar c = asciiAlnum c := by
  simp [uniWordChar, h]

theorem asciiAlnum_lt_128 {c : Char} (h : asciiAlnum c = true) : c.toNat < 128 := by
  simp only [asciiAlnum, isUpperA, isLowerA, isDigitA, Bool.or_eq_true,
    Bool.and_eq_true, decide_eq_true_eq] at h
  omega

theorem uniWordChar_of_asciiAlnum {c : Char} (h : asciiAlnum c = true) :
    uniWordChar c = true := by
  rw [uniWordChar_ascii (asciiAlnum_lt_128 h)]; exact h

theorem asciiAlnum_of_whitespace {c : Char} (h : jsWhitespace c = true) :
    asciiAlnum c = false := by
  simp only [jsWhitespace, Bool.or_eq_true, Bool.and_eq_true, beq_iff_eq,
    decide_eq_true_eq] at h
  simp only [asciiAlnum, isUpperA, isLowerA, isDigitA, Bool.or_eq_false_iff,
    Bool.and_eq_false_iff, decide_eq_false_iff_not, Nat.not_le]
  omega

theorem jsToLowerChar_ne_nil (c : Char) : jsToLowerChar c ≠ [] := by
  unfold jsToLowerChar
  by_cases h1 : (65 ≤ c.toNat && c.toNat ≤ 90) = true
  · simp [h1]
  · by_cases h2 : (c.toNat == 0x130) = true <;>
      simp [h1, h2]

/-- Lowercasing an ASCII alphanumeric yields one ASCII lowercase letter or
digit. -/
theorem jsToLowerChar_of_alnum {c : Char} (h : asciiAlnum c = true) :
    ∃ d, jsToLowerChar c = [d] ∧
      ((97 ≤ d.toNat ∧ d.toNat ≤ 122) ∨ (48 ≤ d.toNat ∧ d.toNat ≤ 57)) := by
  simp only [asciiAlnum, isUpperA, isLowerA, isDigitA, Bool.or_eq_true,
    Bool.and_eq_true, decide_eq_true_eq] at h
  unfold jsToLowerChar
  rcases h with (h | h) | h
  · refine ⟨Char.ofNat (c.toNat + 32), ?_, ?_⟩
    · rw [if_pos (by simp only [Bool.and_eq_true, decide_eq_true_eq]; omega)]
    · rw [toNat_charOfNat (by omega)]; omega
  · refine ⟨c, ?_, Or.inl h⟩
    rw [if_neg (by simp only [Bool.and_eq_true, decide_eq_true_eq]; omega),
        if_neg (by simp only [beq_iff_eq]; omega)]
  · refine ⟨c, ?_, Or.inr h⟩
    rw [if_neg (by simp only [Bool.and_eq_true, decide_eq_true_eq]; omega),
        if_neg (by simp only [beq_iff_eq]; omega)]

/-- An ASCII lowercase letter or digit is alphanumeric, fixed by lowercasing,
a word character, not whitespace, and not a separator. -/
theorem lowerDigit_facts {d : Char}
    (h : (97 ≤ d.toNat ∧ d.toNat ≤ 122) ∨ (48 ≤ d.toNat ∧ d.toNat ≤ 57)) :
    asciiAlnum d = true ∧ jsToLowerChar d = [d] ∧ uniWordChar d = true ∧
      jsWhitespace d = false ∧ d.toNat ≠ 45 ∧ d.toNat ≠ 46 := by
  have halnum : asciiAlnum d = true := by
    simp only [asciiAlnum, isUpperA, isLowerA, isDigitA, Bool.or_eq_true,
      Bool.and_eq_true, decide_eq_true_eq]
    omega
  refine ⟨halnum, ?_, uniWordChar_of_asciiAlnum halnum, ?_, by omega, by omega⟩
  · unfold jsToLowerChar
    rw [if_neg (by simp only [Bool.and_eq_true, decide_eq_true_eq]; omega),
        if_neg (by simp only [beq_iff_eq]; omega)]
  · simp only [jsWhitespace, Bool.or_eq_false_iff, Bool.and_eq_false_iff,
      beq_eq_false_iff_ne, ne_eq, decide_eq_false_iff_not, Nat.not_le]
    omega

/-- Every character produced by lowercasing a word character is neither a
hyphen, a dot, nor whitespace. -/
theorem jsToLowerChar_of_word {c d : Char} (hc : uniWordChar c = true)
    (hd : d ∈ jsToLowerChar c) :
    d.toNat ≠ 45 ∧ d.toNat ≠ 46 ∧ jsWhitespace d = false := by
  unfold jsToLowerChar at hd
  by_cases h1 : (65 ≤ c.toNat && c.toNat ≤ 90) = true
  · rw [if_pos h1] at hd
    simp only [Bool.and_eq_true, decide_eq_true_eq] at h1
    simp only [List.mem_singleton] at hd
    subst hd
    rw [toNat_charOfNat (by omega)]
    refine ⟨by omega, by omega, ?_⟩
    simp only [jsWhitespace, Bool.or_eq_false_iff, Bool.and_eq_false_iff,
      beq_eq_false_iff_ne, ne_eq, decide_eq_false_iff_not, Nat.not_le]
    rw [toNat_charOfNat (by omega)]
    omega
  · rw [if_neg h1] at hd
    by_cases h2 : (c.toNat == 0x130) = true
    · rw [if_pos h2] at hd
      simp only [List.mem_cons, List.mem_singleton, List.not_mem_nil, or_false] at hd
      rcases hd with hd | hd <;> subst hd <;>
        refine ⟨?_, ?_, ?_⟩ <;>
        first
          | (rw [toNat_charOfNat (by omega)]; omega)
          | (simp only [jsWhitespace, Bool.or_eq_false_iff, Bool.and_eq_false_iff,
               beq_eq_false_iff_ne, ne_eq, decide_eq_false_iff_not, Nat.not_le]
             rw [toNat_charOfNat (by omega)]
             omega)
    · rw [if_neg h2] at hd
      simp only [List.mem_singleton] at hd
      rw [hd]
      simp only [Bool.and_eq_true, decide_eq_true_eq, not_and, Nat.not_le] at h1
      simp only [beq_iff_eq] at h2
      have hw := hc
      unfold uniWordChar at hw
      by_cases hlt : c.toNat < 128
      · rw [if_pos hlt] at hw
        simp only [asciiAlnum, isUpperA, isLowerA, isDigitA, Bool.or_eq_true,
          Bool.and_eq_true, decide_eq_true_eq] at hw
        refine ⟨by omega, by omega, ?_⟩
        simp only [jsWhitespace, Bool.or_eq_false_iff, Bool.and_eq_false_iff,
          beq_eq_false_iff_ne, ne_eq, decide_eq_false_iff_not, Nat.not_le]
        omega
      · rw [if_neg hlt] at hw
        by_cases hr : (0xC0 ≤ c.toNat && c.toNat ≤ 0x17F) = true
        · simp only [Bool.and_eq_true, decide_eq_true_eq] at hr
          refine ⟨by omega, by omega, ?_⟩
          simp only [jsWhitespace, Bool.or_eq_false_iff, Bool.and_eq_false_iff,
            beq_eq_false_iff_ne, ne_eq, decide_eq_false_iff_not, Nat.not_le]
          omega
        · rw [if_neg hr] at hw
          exact absurd hw (by simp)

theorem jsLower_ne_nil {w : Str} (h : w ≠ []) : jsLower w ≠ [] := by
  cases w with
  | nil => exact absurd rfl h
  | cons c r =>
    simp only [jsLower, List.flatMap_cons, ne_eq, List.append_eq_nil]
    intro hc
    exact jsToLowerChar_ne_nil c hc.1

/- ===================== trim lemmas ===================== -/

theorem mem_jsTrim {l : Str} {c : Char} (h : c ∈ jsTrim l) : c ∈ l := by
  unfold jsTrim at h
  rw [List.mem_reverse] at h
  have h1 := (List.dropWhile_sublist jsWhitespace).mem h
  rw [List.mem_reverse] at h1
  exact (List.dropWhile_sublist jsWhitespace).mem h1

theorem jsTrim_eq_self {l : Str} (h : ∀ c ∈ l, jsWhitespace c = false) :
    jsTrim l = l := by
  have drop_self : ∀ m : Str, (∀ c ∈ m, jsWhitespace c = false) →
      m.dropWhile jsWhitespace = m := by
    intro m hm
    cases m with
    | nil => rfl
    | cons c cs => rw [List.dropWhile_cons_of_neg (by simp [hm c (by simp)])]
  unfold jsTrim
  rw [drop_self l h, drop_self l.reverse (fun c hc => h c (List.mem_reverse.mp hc)),
    List.reverse_reverse]

theorem jsTrim_eq_nil {l : Str} (h : jsTrim l = []) :
    ∀ c ∈ l, jsWhitespace c = true := by
  unfold jsTrim at h
  rw [List.reverse_eq_nil_iff, List.dropWhile_eq_nil_iff] at h
  have hdrop : ∀ c ∈ l.dropWhile jsWhitespace, jsWhitespace c = true := by
    intro c hc
    exact h c (List.mem_reverse.mpr hc)
  intro c hc
  rw [← List.takeWhile_append_dropWhile (p := jsWhitespace) (l := l),
    List.mem_append] at hc
  rcases hc with hc | hc
  · exact List.mem_takeWhile_imp hc
  · exact hdrop c hc

/- ===================== tokenizer lemmas ===================== -/

theorem tokAux_nil (p : Char → Bool) (acc : Str) :
    tokAux p [] acc = if acc.isEmpty then [] else [acc] := rfl

theorem tokAux_cons (p : Char → Bool) (c : Char) (cs acc : Str) :
    tokAux p (c :: cs) acc =
      if p c then tokAux p cs (acc ++ [c])
      else if acc.isEmpty then tokAux p cs [] else acc :: tokAux p cs [] := rfl

/-- Absorb a run of word characters into the accumulator. -/
theorem tokAux_append_word (p : Char → Bool) (w : Str) (hw : ∀ c ∈ w, p c = true) :
    ∀ (cs : Str) (acc : Str), tokAux p (w ++ cs) acc = tokAux p cs (acc ++ w) := by
  induction w with
  | nil => intro cs acc; simp
  | cons c w ih =>
    intro cs acc
    have hc : p c = true := hw c (by simp)
    rw [List.cons_append, tokAux_cons, if_pos hc, ih (fun d hd => hw d (by simp [hd]))]
    simp

/-- A string of separators flushes the accumulator. -/
theorem tokAux_all_sep (p : Char → Bool) (post : Str)
    (hp : ∀ c ∈ post, p c = false) :
    ∀ acc, tokAux p post acc = if acc.isEmpty then [] else [acc] := by
  induction post with
  | nil => intro acc; rfl
  | cons c cs ih =>
    intro acc
    have hc : p c = false := hp c (by simp)
    have ih0 := ih (fun d hd => hp d (by simp [hd])) []
    simp only [List.isEmpty_nil, if_pos] at ih0
    simp only [tokAux, hc, Bool.false_eq_true, if_false]
    by_cases ha : acc.isEmpty
    · rw [if_pos ha, if_pos ha, ih (fun d hd => hp d (by simp [hd])) []]
      rfl
    · rw [if_neg ha, if_neg ha, ih0]

theorem splitAtSeps_ne_nil (p : Char → Bool) (l : Str) : splitAtSeps p l ≠ [] := by
  cases l with
  | nil => simp [splitAtSeps]
  | cons c cs =>
    unfold splitAtSeps
    match h : splitAtSeps p cs with
    | [] => simp
    | w :: ws => by_cases hc : p c <;> simp [hc]

/-- The scanner, started with accumulator `acc`, computes the nonempty pieces
of the spec-shaped split with `acc` prepended to the first piece. -/
theorem tokAux_eq_split (p : Char → Bool) :
    ∀ (l : Str) (acc : Str),
      tokAux p l acc =
        (match splitAtSeps p l with
         | [] => [acc]
         | w :: ws => (acc ++ w) :: ws).filter (fun x => !x.isEmpty) := by
  intro l
  induction l with
  | nil =>
    intro acc
    simp only [splitAtSeps, tokAux, List.append_nil, List.filter]
    by_cases ha : acc.isEmpty <;> simp [ha]
  | cons c cs ih =>
    intro acc
    match hsplit : splitAtSeps p cs with
    | [] => exact absurd hsplit (splitAtSeps_ne_nil p cs)
    | w :: ws =>
      by_cases hc : p c
      · have : splitAtSeps p (c :: cs) = (c :: w) :: ws := by
          unfold splitAtSeps; rw [hsplit]; simp [hc]
        rw [this]
        simp only [tokAux, hc, if_true]
        rw [ih (acc ++ [c]), hsplit]
        simp
      · have hc' : p c = false := by simp [hc]
        have : splitAtSeps p (c :: cs) = [] :: w :: ws := by
          unfold splitAtSeps; rw [hsplit]; simp [hc']
        rw [this]
        simp only [tokAux, hc', Bool.false_eq_true, if_false]
        have ihe := ih []
        rw [hsplit] at ihe
        simp only [List.nil_append] at ihe
        by_cases ha : acc.isEmpty
        · rw [if_pos ha, ihe]
          have : acc = [] := List.isEmpty_iff.mp ha
          subst this
          simp
        · rw [if_neg ha, ihe]
          have : ¬ acc = [] := by simpa using ha
          simp [List.filter, this, ha]

/-- The regex matcher extracts exactly the spec's maximal runs. -/
theorem tokenize_eq_maximalRuns (p : Char → Bool) (l : Str) :
    tokenize p l = maximalRuns p l := by
  unfold tokenize maximalRuns
  rw [tokAux_eq_split p l []]
  match hsplit : splitAtSeps p l with
  | [] => exact absurd hsplit (splitAtSeps_ne_nil p l)
  | w :: ws => simp

theorem splitAtSeps_congr {p q : Char → Bool} :
    ∀ {l : Str}, (∀ c ∈ l, p c = q c) → splitAtSeps p l = splitAtSeps q l := by
  intro l
  induction l with
  | nil => intro _; rfl
  | cons c cs ih =>
    intro h
    have hc : p c = q c := h c (by simp)
    unfold splitAtSeps
    rw [ih (fun d hd => h d (by simp [hd])), hc]

theorem maximalRuns_congr {p q : Char → Bool} {l : Str}
    (h : ∀ c ∈ l, p c = q c) : maximalRuns p l = maximalRuns q l := by
  unfold maximalRuns
  rw [splitAtSeps_congr h]

/-- Characters of the split pieces are word characters of the string. -/
theorem splitAtSeps_chars {p : Char → Bool} :
    ∀ {l w : Str}, w ∈ splitAtSeps p l → ∀ c ∈ w, p c = true ∧ c ∈ l := by
  intro l
  induction l with
  | nil =>
    intro w hw c hc
    simp only [splitAtSeps, List.mem_singleton] at hw
    subst hw
    simp at hc
  | cons a cs ih =>
    intro w hw c hc
    cases hsplit : splitAtSeps p cs with
    | nil => exact absurd hsplit (splitAtSeps_ne_nil p cs)
    | cons w' ws' =>
      have hmem : ∀ x, x ∈ w' :: ws' → x ∈ splitAtSeps p cs := fun x hx =>
        hsplit ▸ hx
      by_cases ha : p a
      · have heq : splitAtSeps p (a :: cs) = (a :: w') :: ws' := by
          unfold splitAtSeps
          rw [hsplit]
          simp [ha]
        rw [heq] at hw
        rcases List.mem_cons.mp hw with rfl | hw2
        · rcases List.mem_cons.mp hc with rfl | hc2
          · exact ⟨ha, by simp⟩
          · have := ih (hmem w' (by simp)) c hc2
            exact ⟨this.1, List.mem_cons_of_mem _ this.2⟩
        · have := ih (hmem w (by simp [hw2])) c hc
          exact ⟨this.1, List.mem_cons_of_mem _ this.2⟩
      · have heq : splitAtSeps p (a :: cs) = [] :: w' :: ws' := by
          unfold splitAtSeps
          rw [hsplit]
          simp [ha]
        rw [heq] at hw
        rcases List.mem_cons.mp hw with rfl | hw2
        · simp at hc
        · have := ih (hmem w hw2) c hc
          exact ⟨this.1, List.mem_cons_of_mem _ this.2⟩

/-- The spec's words are nonempty and made of word characters of the input. -/
theorem maximalRuns_words {p : Char → Bool} {l w : Str}
    (hw : w ∈ maximalRuns p l) : w ≠ [] ∧ ∀ c ∈ w, p c = true ∧ c ∈ l := by
  rw [maximalRuns, List.mem_filter] at hw
  exact ⟨by simpa using hw.2, fun c hc => splitAtSeps_chars hw.1 c hc⟩

theorem maximalRuns_nil_of_sep {p : Char → Bool} {l : Str}
    (h : ∀ c ∈ l, p c = false) : maximalRuns p l = [] := by
  rw [← tokenize_eq_maximalRuns]
  unfold tokenize
  rw [tokAux_all_sep p l h []]
  rfl

theorem jsJoin_cons (sep : Str) (w : Str) (ws : List Str) (hws : ws ≠ []) :
    jsJoin sep (w :: ws) = w ++ sep ++ jsJoin sep ws := by
  cases ws with
  | nil => exact absurd rfl hws
  | cons w' ws' => rfl

/-- Tokenizing a separator-joined list of nonempty all-word-character strings
recovers the list. -/
theorem tokenize_jsJoin (p : Char → Bool) (sep : Char) (hsep : p sep = false) :
    ∀ ws : List Str, (∀ w ∈ ws, w ≠ [] ∧ ∀ c ∈ w, p c = true) →
      tokenize p (jsJoin [sep] ws) = ws := by
  intro ws
  induction ws with
  | nil => intro _; rfl
  | cons w ws ih =>
    intro h
    have hw := h w (by simp)
    have hempty : w.isEmpty = false := by simpa using hw.1
    cases ws with
    | nil =>
      show tokenize p w = [w]
      unfold tokenize
      have habs := tokAux_append_word p w hw.2 [] []
      rw [List.append_nil] at habs
      rw [habs, tokAux_nil, List.nil_append, hempty]
      simp
    | cons w' ws' =>
      have hrest : jsJoin [sep] (w :: w' :: ws') =
          w ++ (sep :: jsJoin [sep] (w' :: ws')) := by
        rw [jsJoin_cons _ _ _ (by simp)]
        simp
      rw [hrest]
      unfold tokenize
      rw [tokAux_append_word p w hw.2 _ [], List.nil_append, tokAux_cons, hsep]
      simp only [Bool.false_eq_true, if_false, hempty]
      have htk : tokAux p (jsJoin [sep] (w' :: ws')) [] =
          tokenize p (jsJoin [sep] (w' :: ws')) := rfl
      rw [htk, ih (fun x hx => h x (by simp [hx]))]

theorem sepLowerUpper_nil : sepLowerUpper [] = [] := rfl

theorem sepLowerUpper_single (a : Char) : sepLowerUpper [a] = [a] := rfl

theorem sepLowerUpper_cons2 (a d : Char) (rest : Str) :
    sepLowerUpper (a :: d :: rest) =
      if isLowerDigitA a && isUpperA d then a :: ' ' :: sepLowerUpper (d :: rest)
      else a :: sepLowerUpper (d :: rest) := rfl

theorem sepAcronym_cons3 (a d e : Char) (rest : Str) :
    sepAcronym (a :: d :: e :: rest) =
      if isUpperA a && isUpperA d && isLowerDigitA e then
        a :: ' ' :: sepAcronym (d :: e :: rest)
      else a :: sepAcronym (d :: e :: rest) := rfl

theorem mem_sepLowerUpper :
    ∀ {l : Str} {c : Char}, c ∈ sepLowerUpper l → c ∈ l ∨ c = ' ' := by
  intro l
  induction l with
  | nil =>
    intro c hc
    rw [sepLowerUpper_nil] at hc
    exact Or.inl hc
  | cons a t ih =>
    intro c hc
    cases t with
    | nil =>
      rw [sepLowerUpper_single] at hc
      exact Or.inl hc
    | cons d rest =>
      rw [sepLowerUpper_cons2] at hc
      by_cases hcond : (isLowerDigitA a && isUpperA d) = true
      · rw [if_pos hcond] at hc
        rcases List.mem_cons.mp hc with rfl | hc2
        · exact Or.inl (by simp)
        · rcases List.mem_cons.mp hc2 with rfl | hc3
          · exact Or.inr rfl
          · rcases ih hc3 with h | h
            · exact Or.inl (List.mem_cons_of_mem _ h)
            · exact Or.inr h
      · rw [if_neg hcond] at hc
        rcases List.mem_cons.mp hc with rfl | hc2
        · exact Or.inl (by simp)
        · rcases ih hc2 with h | h
          · exact Or.inl (List.mem_cons_of_mem _ h)
          · exact Or.inr h

theorem mem_sepAcronym :
    ∀ {l : Str} {c : Char}, c ∈ sepAcronym l → c ∈ l ∨ c = ' ' := by
  intro l
  induction l with
  | nil => intro c hc; exact Or.inl hc
  | cons a t ih =>
    intro c hc
    cases t with
    | nil => exact Or.inl hc
    | cons d rest =>
      cases rest with
      | nil => exact Or.inl hc
      | cons e rest' =>
        rw [sepAcronym_cons3] at hc
        by_cases hcond : (isUpperA a && isUpperA d && isLowerDigitA e) = true
        · rw [if_pos hcond] at hc
          rcases List.mem_cons.mp hc with rfl | hc2
          · exact Or.inl (by simp)
          · rcases List.mem_cons.mp hc2 with rfl | hc3
            · exact Or.inr rfl
            · rcases ih hc3 with h | h
              · exact Or.inl (List.mem_cons_of_mem _ h)
              · exact Or.inr h
        · rw [if_neg hcond] at hc
          rcases List.mem_cons.mp hc with rfl | hc2
          · exact Or.inl (by simp)
          · rcases ih hc2 with h | h
            · exact Or.inl (List.mem_cons_of_mem _ h)
            · exact Or.inr h

theorem mem_caseSeparate {l : Str} {c : Char} (h : c ∈ caseSeparate l) :
    c ∈ l ∨ c = ' ' := by
  unfold caseSeparate at h
  rcases mem_sepAcronym h with h2 | h2
  · exact mem_sepLowerUpper h2
  · exact Or.inr h2

/-- The refined functions' word extraction is exactly the spec's maximal runs
of the trimmed input. -/
theorem refinedWords_eq (p : Char → Bool) (l : Str) :
    refinedWords p l = maximalRuns p (jsTrim l) := by
  unfold refinedWords
  by_cases h : (jsTrim l).isEmpty
  · rw [if_pos h, List.isEmpty_iff.mp h]
    rfl
  · rw [if_neg h, tokenize_eq_maximalRuns]

theorem mem_of_mem_getLast? {l : Str} {a : Char} (h : l.getLast? = some a) :
    a ∈ l := by
  have hmem : a ∈ l.getLast? := Option.mem_def.mpr h
  obtain ⟨hne, heq⟩ := List.mem_getLast?_eq_getLast hmem
  rw [heq]
  exact List.getLast_mem hne

theorem jsLower_word_chars {w : Str} (hw : ∀ c ∈ w, uniWordChar c = true) :
    ∀ d ∈ jsLower w, d.toNat ≠ 45 ∧ d.toNat ≠ 46 ∧ jsWhitespace d = false := by
  intro d hd
  rw [jsLower, List.mem_flatMap] at hd
  obtain ⟨c, hc, hdc⟩ := hd
  exact jsToLowerChar_of_word (hw c hc) hdc

theorem jsLower_alnum_chars {w : Str} (hw : ∀ c ∈ w, asciiAlnum c = true) :
    ∀ d ∈ jsLower w,
      (97 ≤ d.toNat ∧ d.toNat ≤ 122) ∨ (48 ≤ d.toNat ∧ d.toNat ≤ 57) := by
  intro d hd
  rw [jsLower, List.mem_flatMap] at hd
  obtain ⟨c, hc, hdc⟩ := hd
  obtain ⟨e, he, hrange⟩ := jsToLowerChar_of_alnum (hw c hc)
  rw [he, List.mem_singleton] at hdc
  exact hdc ▸ hrange

theorem jsLower_fixed_of_lower {w : Str}
    (hw : ∀ d ∈ w, (97 ≤ d.toNat ∧ d.toNat ≤ 122) ∨ (48 ≤ d.toNat ∧ d.toNat ≤ 57)) :
    jsLower w = w := by
  induction w with
  | nil => rfl
  | cons c cs ih =>
    have hfix := (lowerDigit_facts (hw c (by simp))).2.1
    show jsToLowerChar c ++ cs.flatMap jsToLowerChar = c :: cs
    rw [hfix]
    have : cs.flatMap jsToLowerChar = jsLower cs := rfl
    rw [this, ih (fun d hd => hw d (by simp [hd]))]
    rfl

/- ===================== separator-shape lemmas ===================== -/

theorem noAdjSep_nil (sep : Char) : noAdjSep sep [] = true := rfl

theorem noAdjSep_single (sep c : Char) : noAdjSep sep [c] = true := rfl

theorem noAdjSep_cons2 (sep c d : Char) (rest : Str) :
    noAdjSep sep (c :: d :: rest) =
      (!(c == sep && d == sep) && noAdjSep sep (d :: rest)) := rfl

theorem noAdjSep_of_no_sep {sep : Char} :
    ∀ {out : Str}, (∀ c ∈ out, c ≠ sep) → noAdjSep sep out = true := by
  intro out
  induction out with
  | nil => intro _; rfl
  | cons c cs ih =>
    intro h
    cases cs with
    | nil => rfl
    | cons d rest =>
      have hc : c ≠ sep := h c (by simp)
      rw [noAdjSep_cons2, Bool.and_eq_true]
      exact ⟨by simp [hc], ih (fun x hx => h x (by simp [hx]))⟩

theorem noAdjSep_append_sep {sep : Char} {out : Str}
    (hout : noAdjSep sep out = true)
    (hhead : ∀ x, out.head? = some x → x ≠ sep) :
    ∀ {w : Str}, (∀ c ∈ w, c ≠ sep) → noAdjSep sep (w ++ sep :: out) = true := by
  intro w
  induction w with
  | nil =>
    intro _
    rw [List.nil_append]
    cases out with
    | nil => rfl
    | cons d rest =>
      have hd : d ≠ sep := hhead d rfl
      rw [noAdjSep_cons2, Bool.and_eq_true]
      exact ⟨by simp [hd], hout⟩
  | cons a w' ih =>
    intro h
    have ha : a ≠ sep := h a (by simp)
    have tail := ih (fun x hx => h x (by simp [hx]))
    cases w' with
    | nil =>
      rw [List.cons_append, List.nil_append, noAdjSep_cons2, Bool.and_eq_true]
      rw [List.nil_append] at tail
      exact ⟨by simp [ha], tail⟩
    | cons b w'' =>
      rw [List.cons_append, List.cons_append, noAdjSep_cons2, Bool.and_eq_true]
      refine ⟨by simp [ha], ?_⟩
      rw [List.cons_append] at tail
      exact tail

theorem jsJoin_head? (sep : Str) {w : Str} (ws : List Str) (hw : w ≠ []) :
    (jsJoin sep (w :: ws)).head? = w.head? := by
  cases ws with
  | nil => rfl
  | cons w' ws' =>
    rw [jsJoin_cons _ _ _ (by simp), List.append_assoc, List.head?_append]
    cases w with
    | nil => exact absurd rfl hw
    | cons c r => rfl

theorem jsJoin_ne_nil {sep : Str} {w : Str} (ws : List Str) (hw : w ≠ []) :
    jsJoin sep (w :: ws) ≠ [] := by
  intro hnil
  have := jsJoin_head? sep ws hw
  rw [hnil] at this
  cases w with
  | nil => exact hw rfl
  | cons c r => simp at this

/-- A separator-join of nonempty, separator-free words has the claimed output
shape. -/
theorem sepShape_jsJoin {sep : Char} :
    ∀ {ws : List Str}, (∀ w ∈ ws, w ≠ [] ∧ ∀ c ∈ w, c ≠ sep) →
      sepShape sep (jsJoin [sep] ws) := by
  intro ws
  induction ws with
  | nil => exact fun _ => ⟨rfl, by simp [jsJoin], by simp [jsJoin]⟩
  | cons w ws ih =>
    intro h
    have hw := h w (by simp)
    cases ws with
    | nil =>
      refine ⟨noAdjSep_of_no_sep hw.2, ?_, ?_⟩
      · intro hc
        have hc' : w.head? = some sep := hc
        exact hw.2 sep (List.mem_of_mem_head? (Option.mem_def.mpr hc')) rfl
      · intro hc
        have hc' : w.getLast? = some sep := hc
        exact hw.2 sep (mem_of_mem_getLast? hc') rfl
    | cons w' ws' =>
      have ihs := ih (fun x hx => h x (by simp [hx]))
      have hw' := h w' (by simp)
      have hjoin : jsJoin [sep] (w :: w' :: ws') =
          w ++ sep :: jsJoin [sep] (w' :: ws') := by
        rw [jsJoin_cons _ _ _ (by simp)]
        simp
      have hhead : ∀ x, (jsJoin [sep] (w' :: ws')).head? = some x → x ≠ sep := by
        intro x hx
        rw [jsJoin_head? [sep] ws' hw'.1] at hx
        exact hw'.2 x (List.mem_of_mem_head? (by simp [hx, Option.mem_def]))
      refine ⟨?_, ?_, ?_⟩
      · rw [hjoin]
        exact noAdjSep_append_sep ihs.1 hhead hw.2
      · rw [hjoin, List.head?_append]
        intro hc
        cases hw2 : w.head? with
        | none => exact hw.1 (List.head?_eq_none_iff.mp hw2)
        | some c =>
          rw [hw2] at hc
          simp only [Option.or_some, Option.some.injEq] at hc
          exact hw.2 sep (hc ▸ List.mem_of_mem_head? (by simp [hw2, Option.mem_def])) rfl
      · rw [hjoin, List.getLast?_append]
        have hne : jsJoin [sep] (w' :: ws') ≠ [] := jsJoin_ne_nil ws' hw'.1
        cases hrest : jsJoin [sep] (w' :: ws') with
        | nil => exact absurd hrest hne
        | cons r rs =>
          rw [List.getLast?_cons_cons]
          intro hc
          cases hg : (r :: rs).getLast? with
          | none => exact (List.cons_ne_nil r rs) (List.getLast?_eq_none_iff.mp hg)
          | some x =>
            rw [hg, Option.or_some] at hc
            apply ihs.2.2
            rw [hrest, hg, Option.some.inj hc]

theorem mem_jsJoin {sep : Str} :
    ∀ {ws : List Str} {c : Char}, c ∈ jsJoin sep ws →
      (∃ w ∈ ws, c ∈ w) ∨ c ∈ sep := by
  intro ws
  induction ws with
  | nil =>
    intro c hc
    exact absurd hc (List.not_mem_nil c)
  | cons w ws ih =>
    intro c hc
    cases ws with
    | nil => exact Or.inl ⟨w, by simp, hc⟩
    | cons w' ws' =>
      rw [jsJoin_cons _ _ _ (by simp)] at hc
      rcases List.mem_append.mp hc with h1 | h2
      · rcases List.mem_append.mp h1 with ha | hb
        · exact Or.inl ⟨w, by simp, ha⟩
        · exact Or.inr hb
      · rcases ih h2 with ⟨x, hx, hcx⟩ | hs
        · exact Or.inl ⟨x, by simp [hx], hcx⟩
        · exact Or.inr hs

/-- The refined conversions on a string that trims to empty. -/
theorem refined_str_nil_of_trim {l : Str} (h : jsTrim l = []) :
    toCamelCase_str l = [] ∧ toKebabCase_str l = [] ∧ toDotCase_str l = [] := by
  have hw : refinedWords uniWordChar l = [] := by
    simp [refinedWords, h]
  unfold toCamelCase_str toCamelCaseRP toKebabCase_str toKebabCaseRP
    toDotCase_str toDotCaseRP
  rw [hw]
  exact ⟨rfl, rfl, rfl⟩

/-- Result of `part_000`'s conversion on an all-whitespace string. -/
theorem part000_str_nil_of_ws {l : Str} (h : ∀ c ∈ l, jsWhitespace c = true) :
    toKebabCas_str l = [] := by
  have hwords : part000Words l = [] := by
    unfold part000Words
    apply maximalRuns_nil_of_sep
    intro c hc
    rcases mem_caseSeparate hc with h1 | h1
    · have hcl : c ∈ l := by
        unfold nfkdStripDia at h1
        exact (List.mem_filter.mp h1).1
      exact asciiAlnum_of_whitespace (h c hcl)
    · rw [h1]
      decide
  unfold toKebabCas_str
  rw [hwords]
  rfl

/-- Result of `few_shot_prompt.js`'s conversion on a string that trims to empty. -/
theorem fewShot_str_nil_of_trim {l : Str} (h : jsTrim l = []) :
    toCamelCaseFS_str l = [] := by
  simp [toCamelCaseFS_str, h]

/- ===================== the claims ===================== -/

/-- Claim C10. A DELETE request whose id is not a valid ObjectId is answered
with status 400 and body `{ error: "Invalid comment id" }`, and the comment
store is unchanged. -/
theorem claim10_thm (id : Str) (store : CommentStore)
    (h : isValidObjectId id = false) :
    handleDeleteComment id store =
      ({ status := 400, body := .errorMsg (strL "Invalid comment id") }, store) := by
  unfold handleDeleteComment
  rw [h]
  rfl

theorem claim10_witness :
    isValidObjectId (strL "not-an-objectid") = false ∧
      handleDeleteComment (strL "not-an-objectid")
          [⟨strL "0123456789abcdef01234567", strL "t", strL "a"⟩] =
        ({ status := 400, body := .errorMsg (strL "Invalid comment id") },
         [⟨strL "0123456789abcdef01234567", strL "t", strL "a"⟩]) :=
  ⟨by decide,
   claim10_thm (strL "not-an-objectid")
     [⟨strL "0123456789abcdef01234567", strL "t", strL "a"⟩] (by decide)⟩

/-- Claim C3, counterexample. The claim "no invocation changes any observable
state" is false: a DELETE request with a valid id that is present in the
comment store returns a store different from the one it started from. -/
theorem claim3_counterexample :
    (handleDeleteComment (strL "0123456789abcdef01234567")
        [⟨strL "0123456789abcdef01234567", strL "t", strL "a"⟩]).2
      ≠ [⟨strL "0123456789abcdef01234567", strL "t", strL "a"⟩] := by
  decide

/-- Claim C3, amended. The case-conversion functions are pure functions of
their input (they are modelled as plain functions and carry no state), but
the comments router does interact with persistent state: GET returns the
current store contents, and DELETE with a valid id found in the store removes
the addressed comment, leaving a store of strictly smaller length. -/
theorem claim3_amended :
    (∀ store : CommentStore,
        handleGetComments store = ({ status := 200, body := .commentList store }, store))
    ∧ (∀ (id : Str) (store : CommentStore) (c : Comment),
        isValidObjectId id = true →
        store.find? (fun x => x._id = id) = some c →
        (handleDeleteComment id store).2 = store.eraseP (fun x => x._id = id)
        ∧ (handleDeleteComment id store).2.length + 1 = store.length
        ∧ (handleDeleteComment id store).2 ≠ store) := by
  refine ⟨fun store => rfl, ?_⟩
  intro id store c hvalid hfind
  have hmem : c ∈ store := List.mem_of_find?_eq_some hfind
  have hpc : decide (c._id = id) = true :=
    @List.find?_some Comment (fun x => decide (x._id = id)) c store hfind
  have hdel : (handleDeleteComment id store).2 = store.eraseP (fun x => x._id = id) := by
    unfold handleDeleteComment
    rw [hvalid, hfind]
    rfl
  have hlen : (store.eraseP (fun x => decide (x._id = id))).length + 1 = store.length := by
    rw [List.length_eraseP_of_mem hmem hpc]
    have : 1 ≤ store.length := List.length_pos.mpr (List.ne_nil_of_mem hmem)
    omega
  refine ⟨hdel, by rw [hdel]; exact hlen, ?_⟩
  rw [hdel]
  intro heq
  have hlen2 := congrArg List.length heq
  omega

theorem claim3_witness :
    isValidObjectId (strL "0123456789abcdef01234567") = true ∧
      ([⟨strL "0123456789abcdef01234567", strL "t", strL "a"⟩] :
          CommentStore).find? (fun x => x._id = strL "0123456789abcdef01234567")
        = some ⟨strL "0123456789abcdef01234567", strL "t", strL "a"⟩ ∧
      (handleDeleteComment (strL "0123456789abcdef01234567")
          [⟨strL "0123456789abcdef01234567", strL "t", strL "a"⟩]).2
        ≠ [⟨strL "0123456789abcdef01234567", strL "t", strL "a"⟩] :=
  ⟨by decide, by decide,
    (claim3_amended.2 (strL "0123456789abcdef01234567")
      [⟨strL "0123456789abcdef01234567", strL "t", strL "a"⟩]
      ⟨strL "0123456789abcdef01234567", strL "t", strL "a"⟩
      (by decide) (by decide)).2.2⟩

/-- Claim C4. For every conversion function in the repository, an input of null
or undefined, or any input whose coerced string form trims to the empty
string, yields the empty string. -/
theorem claim4_thm (v : JSValue)
    (h : v = .nullV ∨ v = .undefV ∨
          ∃ s, jsToString v = .ok s ∧ jsTrim s = []) :
    toCamelCaseFS v = .ok [] ∧ toCamelCaseV v = .ok [] ∧ toKebabCaseV v = .ok []
      ∧ toDotCaseV v = .ok [] ∧ toKebabCasV v = .ok []
      ∧ toKebabCaseP000 v = .ok [] := by
  rcases h with rfl | rfl | ⟨s, hok, htrim⟩
  · decide
  · decide
  · cases v with
    | nullV =>
      have hs : strL "null" = s := Except.ok.inj hok
      rw [← hs] at htrim
      exact absurd htrim (by decide)
    | undefV =>
      have hs : strL "undefined" = s := Except.ok.inj hok
      rw [← hs] at htrim
      exact absurd htrim (by decide)
    | boolV b =>
      cases b
      · have hs : strL "false" = s := Except.ok.inj hok
        rw [← hs] at htrim
        exact absurd htrim (by decide)
      · have hs : strL "true" = s := Except.ok.inj hok
        rw [← hs] at htrim
        exact absurd htrim (by decide)
    | symV => exact absurd hok (by simp [jsToString])
    | objV o =>
      cases o with
      | none => exact absurd hok (by simp [jsToString])
      | some s' =>
        have hs : s' = s := Except.ok.inj hok
        subst hs
        have hws : ∀ c ∈ s', jsWhitespace c = true := jsTrim_eq_nil htrim
        have hfs : toCamelCaseFS_str s' = [] := fewShot_str_nil_of_trim htrim
        have hrf := refined_str_nil_of_trim htrim
        have hp0 : toKebabCas_str s' = [] := part000_str_nil_of_ws hws
        refine ⟨?_, ?_, ?_, ?_, ?_, ?_⟩
        · show Except.ok (toCamelCaseFS_str s') = Except.ok []
          rw [hfs]
        · show Except.ok (toCamelCase_str s') = Except.ok []
          rw [hrf.1]
        · show Except.ok (toKebabCase_str s') = Except.ok []
          rw [hrf.2.1]
        · show Except.ok (toDotCase_str s') = Except.ok []
          rw [hrf.2.2]
        · show Except.ok (toKebabCas_str s') = Except.ok []
          rw [hp0]
        · show Except.ok (toKebabCas_str s') = Except.ok []
          rw [hp0]
    | strV s' =>
      have hs : s' = s := Except.ok.inj hok
      subst hs
      have hws : ∀ c ∈ s', jsWhitespace c = true := jsTrim_eq_nil htrim
      have hfs : toCamelCaseFS_str s' = [] := fewShot_str_nil_of_trim htrim
      have hrf := refined_str_nil_of_trim htrim
      have hp0 : toKebabCas_str s' = [] := part000_str_nil_of_ws hws
      refine ⟨?_, ?_, ?_, ?_, ?_, ?_⟩
      · by_cases hse : s'.isEmpty
        · have : s' = [] := List.isEmpty_iff.mp hse
          subst this
          decide
        · have hse' : s'.isEmpty = false := by simpa using hse
          simp only [toCamelCaseFS, jsFalsy, hse', Bool.false_eq_true, if_false]
          show Except.ok (toCamelCaseFS_str s') = Except.ok []
          rw [hfs]
      · show Except.ok (toCamelCase_str s') = Except.ok []
        rw [hrf.1]
      · show Except.ok (toKebabCase_str s') = Except.ok []
        rw [hrf.2.1]
      · show Except.ok (toDotCase_str s') = Except.ok []
        rw [hrf.2.2]
      · show Except.ok (toKebabCas_str s') = Except.ok []
        rw [hp0]
      · show Except.ok (toKebabCas_str s') = Except.ok []
        rw [hp0]

theorem claim4_witness :
    ((.strV (strL "  ") : JSValue) = .nullV ∨ (.strV (strL "  ") : JSValue) = .undefV ∨
      ∃ s, jsToString (.strV (strL "  ")) = .ok s ∧ jsTrim s = []) ∧
    toCamelCaseFS (.strV (strL "  ")) = .ok [] ∧
      toCamelCaseV (.strV (strL "  ")) = .ok [] ∧
      toKebabCaseV (.strV (strL "  ")) = .ok [] ∧
      toDotCaseV (.strV (strL "  ")) = .ok [] ∧
      toKebabCasV (.strV (strL "  ")) = .ok [] ∧
      toKebabCaseP000 (.strV (strL "  ")) = .ok [] :=
  ⟨Or.inr (Or.inr ⟨strL "  ", rfl, by decide⟩),
   claim4_thm (.strV (strL "  "))
     (Or.inr (Or.inr ⟨strL "  ", rfl, by decide⟩))⟩

/-- Claim C1, counterexample. The claim that every conversion function
tokenizes into the maximal alphanumeric runs of the trimmed input is false:
`few_shot_prompt.js`'s `toCamelCase` tokenizes `"fooBar"` into
`["foo", "Bar"]`, splitting the single maximal run `"fooBar"` at the letter
case boundary. -/
theorem claim1_counterexample :
    fewShotWords (strL "fooBar") ≠
      maximalRuns asciiAlnum (jsTrim (strL "fooBar")) := by
  decide

/-- Claim C1, amended. The `refined_prompt.js` conversions tokenize the trimmed
string form of the input into exactly the maximal contiguous runs of word
characters, in their original order, every non-word character acting only as
a separator and no run ever split; `few_shot_prompt.js`'s `toCamelCase` and
`part_000`'s `toKebabCas` instead tokenize the case-boundary-separated string
(for `toKebabCas`, additionally NFKD-normalized and diacritic-stripped, and
not pre-trimmed) into its maximal ASCII-alphanumeric runs, so a contiguous
run may be split at a letter-case boundary. -/
theorem claim1_amended :
    (∀ (p : Char → Bool) (l : Str), refinedWords p l = maximalRuns p (jsTrim l))
    ∧ (∀ l : Str,
        fewShotWords l = maximalRuns asciiAlnum (caseSeparate (jsTrim l)))
    ∧ (∀ l : Str,
        part000Words l = maximalRuns asciiAlnum (caseSeparate (nfkdStripDia l))) :=
  ⟨refinedWords_eq, fun _ => rfl, fun _ => rfl⟩

/-- Claim C2, counterexample. The claim that `toKebabCase` (`part_000`'s
`toKebabCas`) returns the words of the trimmed input lowercased and joined
with '-' is false at `"fooBar"`: the single word `"fooBar"` would give
`"foobar"`, but the function returns `"foo-bar"`. -/
theorem claim2_counterexample :
    toKebabCas_str (strL "fooBar") ≠
      jsJoin ['-'] ((maximalRuns asciiAlnum (jsTrim (strL "fooBar"))).map jsLower) := by
  decide

/-- Claim C2, amended. When at least one word is found: `toCamelCase`
(`refined_prompt.js`) returns the first word fully lowercased followed by
each subsequent word lowercased with its first character then uppercased,
concatenated with no separator; `toKebabCase` and `toDotCase`
(`refined_prompt.js`) return all words fully lowercased joined with '-'
resp. '.'; and `part_000`'s `toKebabCas` returns the words of its own
case-separated, diacritic-stripped tokenization (not those of the plain
trimmed input) lowercased and joined with '-'. -/
theorem claim2_amended (l : Str) :
    (refinedWords uniWordChar l ≠ [] →
        toCamelCase_str l = specJoinCamel (refinedWords uniWordChar l)
        ∧ toKebabCase_str l = specJoinLower '-' (refinedWords uniWordChar l)
        ∧ toDotCase_str l = specJoinLower '.' (refinedWords uniWordChar l))
    ∧ (part000Words l ≠ [] →
        toKebabCas_str l = specJoinLower '-' (part000Words l)) := by
  constructor
  · intro h
    cases hws : refinedWords uniWordChar l with
    | nil => exact absurd hws h
    | cons w ws =>
      unfold toCamelCase_str toCamelCaseRP toKebabCase_str toKebabCaseRP
        toDotCase_str toDotCaseRP specJoinCamel specJoinLower
      rw [hws]
      exact ⟨rfl, rfl, rfl⟩
  · intro h
    unfold toKebabCas_str specJoinLower
    rfl

theorem claim2_witness :
    refinedWords uniWordChar (strL "hello world") ≠ [] ∧
      part000Words (strL "hello world") ≠ [] ∧
      toCamelCase_str (strL "hello world")
        = specJoinCamel (refinedWords uniWordChar (strL "hello world")) ∧
      toKebabCase_str (strL "hello world")
        = specJoinLower '-' (refinedWords uniWordChar (strL "hello world")) ∧
      toDotCase_str (strL "hello world")
        = specJoinLower '.' (refinedWords uniWordChar (strL "hello world")) ∧
      toKebabCas_str (strL "hello world")
        = specJoinLower '-' (part000Words (strL "hello world")) :=
  ⟨by decide, by decide,
   ((claim2_amended (strL "hello world")).1 (by decide)).1,
   ((claim2_amended (strL "hello world")).1 (by decide)).2.1,
   ((claim2_amended (strL "hello world")).1 (by decide)).2.2,
   (claim2_amended (strL "hello world")).2 (by decide)⟩

/-- Claim C7. On an all-ASCII input the Unicode-aware word regex and the ASCII
fallback produce identical word lists, and each `refined_prompt.js`
conversion returns the same result whichever regex the runtime selects. -/
theorem claim7_thm (l : Str) (hA : ∀ c ∈ l, c.toNat < 128) :
    refinedWords uniWordChar l = refinedWords asciiAlnum l
    ∧ toCamelCaseRP uniWordChar l = toCamelCaseRP asciiAlnum l
    ∧ toKebabCaseRP uniWordChar l = toKebabCaseRP asciiAlnum l
    ∧ toDotCaseRP uniWordChar l = toDotCaseRP asciiAlnum l := by
  have hwords : refinedWords uniWordChar l = refinedWords asciiAlnum l := by
    rw [refinedWords_eq, refinedWords_eq]
    exact maximalRuns_congr (fun c hc => uniWordChar_ascii (hA c (mem_jsTrim hc)))
  refine ⟨hwords, ?_, ?_, ?_⟩
  · unfold toCamelCaseRP
    rw [hwords]
  · unfold toKebabCaseRP
    rw [hwords]
  · unfold toDotCaseRP
    rw [hwords]

theorem claim7_witness :
    (∀ c ∈ strL "Foo_bar 42", c.toNat < 128) ∧
      (refinedWords uniWordChar (strL "Foo_bar 42")
          = refinedWords asciiAlnum (strL "Foo_bar 42")
        ∧ toCamelCaseRP uniWordChar (strL "Foo_bar 42")
          = toCamelCaseRP asciiAlnum (strL "Foo_bar 42")
        ∧ toKebabCaseRP uniWordChar (strL "Foo_bar 42")
          = toKebabCaseRP asciiAlnum (strL "Foo_bar 42")
        ∧ toDotCaseRP uniWordChar (strL "Foo_bar 42")
          = toDotCaseRP asciiAlnum (strL "Foo_bar 42")) :=
  ⟨by decide, claim7_thm (strL "Foo_bar 42") (by decide)⟩

/-- Lowercased word lists are nonempty and free of the separator. -/
theorem mapped_words_sep_free {ws : List Str}
    (hws : ∀ w ∈ ws, w ≠ [] ∧ ∀ c ∈ w, uniWordChar c = true) (sep : Char)
    (hsep : sep.toNat = 45 ∨ sep.toNat = 46) :
    ∀ y ∈ ws.map jsLower, y ≠ [] ∧ ∀ c ∈ y, c ≠ sep := by
  intro y hy
  rw [List.mem_map] at hy
  obtain ⟨x, hx, rfl⟩ := hy
  have hxf := hws x hx
  refine ⟨jsLower_ne_nil hxf.1, ?_⟩
  intro c hc heq
  have hfacts := jsLower_word_chars hxf.2 c hc
  subst heq
  rcases hsep with h | h
  · exact hfacts.1 h
  · exact hfacts.2.1 h

/-- Claim C8. Tokenization never produces an empty word, and consequently the
outputs of the kebab-case and dot-case conversions contain no two adjacent
separators and neither begin nor end with the separator. -/
theorem claim8_thm (l : Str) :
    (∀ w ∈ refinedWords uniWordChar l, w ≠ [])
    ∧ (∀ w ∈ fewShotWords l, w ≠ [])
    ∧ (∀ w ∈ part000Words l, w ≠ [])
    ∧ sepShape '-' (toKebabCase_str l)
    ∧ sepShape '.' (toDotCase_str l)
    ∧ sepShape '-' (toKebabCas_str l) := by
  have href : ∀ w ∈ refinedWords uniWordChar l,
      w ≠ [] ∧ ∀ c ∈ w, uniWordChar c = true := by
    intro w hw
    rw [refinedWords_eq] at hw
    have hmw := maximalRuns_words hw
    exact ⟨hmw.1, fun c hc => (hmw.2 c hc).1⟩
  have hfew : ∀ w ∈ fewShotWords l,
      w ≠ [] ∧ ∀ c ∈ w, asciiAlnum c = true := by
    intro w hw
    have hmw := maximalRuns_words hw
    exact ⟨hmw.1, fun c hc => (hmw.2 c hc).1⟩
  have hp000 : ∀ w ∈ part000Words l,
      w ≠ [] ∧ ∀ c ∈ w, asciiAlnum c = true := by
    intro w hw
    have hmw := maximalRuns_words hw
    exact ⟨hmw.1, fun c hc => (hmw.2 c hc).1⟩
  refine ⟨fun w hw => (href w hw).1, fun w hw => (hfew w hw).1,
    fun w hw => (hp000 w hw).1, ?_, ?_, ?_⟩
  · unfold toKebabCase_str toKebabCaseRP
    cases hws : refinedWords uniWordChar l with
    | nil => exact ⟨rfl, by simp, by simp⟩
    | cons w ws =>
      exact sepShape_jsJoin
        (mapped_words_sep_free (fun x hx => href x (hws ▸ hx)) '-' (Or.inl (by decide)))
  · unfold toDotCase_str toDotCaseRP
    cases hws : refinedWords uniWordChar l with
    | nil => exact ⟨rfl, by simp, by simp⟩
    | cons w ws =>
      exact sepShape_jsJoin
        (mapped_words_sep_free (fun x hx => href x (hws ▸ hx)) '.' (Or.inr (by decide)))
  · unfold toKebabCas_str
    exact sepShape_jsJoin
      (mapped_words_sep_free
        (fun x hx =>
          ⟨(hp000 x hx).1,
           fun c hc => uniWordChar_of_asciiAlnum ((hp000 x hx).2 c hc)⟩)
        '-' (Or.inl (by decide)))

/-- Claim C6, counterexample. The two `toCamelCase` implementations differ at
the string input `"fooBar"`: `few_shot_prompt.js` separates the case boundary
and returns `"fooBar"`, while `refined_prompt.js` keeps the run whole and
returns `"foobar"`. -/
theorem claim6_counterexample :
    toCamelCaseFS (.strV (strL "fooBar")) ≠ toCamelCaseV (.strV (strL "fooBar")) := by
  decide

/-- Claim C6, amended. The two `toCamelCase` implementations agree on every
string input that is all-ASCII and on whose trimmed form the case-boundary
separation step is the identity (no lowercase letter or digit immediately
followed by an uppercase letter, and no two uppercase letters followed by a
lowercase letter or digit). -/
theorem claim6_amended (s : Str) (hA : ∀ c ∈ s, c.toNat < 128)
    (hSep : caseSeparate (jsTrim s) = jsTrim s) :
    toCamelCaseFS (.strV s) = toCamelCaseV (.strV s) := by
  have hwords : fewShotWords s = refinedWords uniWordChar s := by
    unfold fewShotWords
    rw [hSep, refinedWords_eq]
    exact maximalRuns_congr
      (fun c hc => (uniWordChar_ascii (hA c (mem_jsTrim hc))).symm)
  have hstr : toCamelCaseFS_str s = toCamelCase_str s := by
    by_cases ht : (jsTrim s).isEmpty
    · have h1 : toCamelCaseFS_str s = [] := by
        simp [toCamelCaseFS_str, ht]
      have h2 := (refined_str_nil_of_trim (List.isEmpty_iff.mp ht)).1
      rw [h1, h2]
    · have ht' : (jsTrim s).isEmpty = false := by simpa using ht
      unfold toCamelCaseFS_str toCamelCase_str toCamelCaseRP refinedWords
      simp only [ht', Bool.false_eq_true, if_false]
      rw [hwords]
      unfold refinedWords
      simp only [ht', Bool.false_eq_true, if_false]
  by_cases hse : s.isEmpty
  · have : s = [] := List.isEmpty_iff.mp hse
    subst this
    decide
  · have hse' : s.isEmpty = false := by simpa using hse
    simp only [toCamelCaseFS, jsFalsy, hse', Bool.false_eq_true, if_false]
    show Except.ok (toCamelCaseFS_str s) = toCamelCaseV (.strV s)
    have hV : toCamelCaseV (.strV s) = .ok (toCamelCase_str s) := rfl
    rw [hV, hstr]

theorem claim6_witness :
    (∀ c ∈ strL "make hub 42", c.toNat < 128) ∧
      caseSeparate (jsTrim (strL "make hub 42")) = jsTrim (strL "make hub 42") ∧
      toCamelCaseFS (.strV (strL "make hub 42"))
        = toCamelCaseV (.strV (strL "make hub 42")) :=
  ⟨by decide, by decide,
   claim6_amended (strL "make hub 42") (by decide) (by decide)⟩

/-- Claim C9, counterexample. `toKebabCase` of `refined_prompt.js` is not
idempotent: at the single character U+0130 (LATIN CAPITAL LETTER I WITH DOT
ABOVE) one application yields `"i"` followed by the combining dot U+0307
(the JavaScript lowercase mapping of U+0130), and a second application drops
the combining mark — which `\p{L}\p{N}` does not match — leaving `"i"`. -/
theorem claim9_counterexample :
    toKebabCase_str (toKebabCase_str [Char.ofNat 0x130])
      ≠ toKebabCase_str [Char.ofNat 0x130] := by
  decide

/-- Claim C9, amended. `toKebabCase` of `refined_prompt.js` is idempotent on
every input whose string form consists of ASCII characters only. -/
theorem claim9_amended (l : Str) (hA : ∀ c ∈ l, c.toNat < 128) :
    toKebabCase_str (toKebabCase_str l) = toKebabCase_str l := by
  cases hws : refinedWords uniWordChar l with
  | nil =>
    have h1 : toKebabCase_str l = [] := by
      unfold toKebabCase_str toKebabCaseRP
      rw [hws]
    rw [h1]
    exact (refined_str_nil_of_trim (show jsTrim [] = [] from rfl)).2.1
  | cons w ws =>
    have hwf : ∀ x ∈ w :: ws, x ≠ [] ∧ ∀ c ∈ x, asciiAlnum c = true := by
      intro x hx
      rw [← hws, refinedWords_eq] at hx
      have hmw := maximalRuns_words hx
      refine ⟨hmw.1, fun c hc => ?_⟩
      have h2 : c.toNat < 128 := hA c (mem_jsTrim (hmw.2 c hc).2)
      rw [← uniWordChar_ascii h2]
      exact (hmw.2 c hc).1
    have h1 : toKebabCase_str l = jsJoin ['-'] ((w :: ws).map jsLower) := by
      unfold toKebabCase_str toKebabCaseRP
      rw [hws]
    rw [h1]
    have hmapped : ∀ y ∈ (w :: ws).map jsLower, y ≠ [] ∧ ∀ d ∈ y,
        (97 ≤ d.toNat ∧ d.toNat ≤ 122) ∨ (48 ≤ d.toNat ∧ d.toNat ≤ 57) := by
      intro y hy
      rw [List.mem_map] at hy
      obtain ⟨x, hx, rfl⟩ := hy
      have hxf := hwf x hx
      exact ⟨jsLower_ne_nil hxf.1, jsLower_alnum_chars hxf.2⟩
    have houtne : jsJoin ['-'] ((w :: ws).map jsLower) ≠ [] := by
      show jsJoin ['-'] (jsLower w :: ws.map jsLower) ≠ []
      exact jsJoin_ne_nil _ (jsLower_ne_nil (hwf w (by simp)).1)
    have htrimout : jsTrim (jsJoin ['-'] ((w :: ws).map jsLower))
        = jsJoin ['-'] ((w :: ws).map jsLower) := by
      apply jsTrim_eq_self
      intro c hc
      rcases mem_jsJoin hc with ⟨y, hy, hcy⟩ | hcs
      · exact (lowerDigit_facts ((hmapped y hy).2 c hcy)).2.2.2.1
      · have hcdash : c = '-' := by simpa using hcs
        rw [hcdash]
        decide
    have hwords2 : refinedWords uniWordChar (jsJoin ['-'] ((w :: ws).map jsLower))
        = (w :: ws).map jsLower := by
      unfold refinedWords
      rw [htrimout, if_neg (by simpa using houtne)]
      apply tokenize_jsJoin _ _ (by decide)
      intro y hy
      exact ⟨(hmapped y hy).1,
        fun c hc => (lowerDigit_facts ((hmapped y hy).2 c hc)).2.2.1⟩
    have hfix : ((w :: ws).map jsLower).map jsLower = (w :: ws).map jsLower := by
      have hcongr : ((w :: ws).map jsLower).map jsLower
          = ((w :: ws).map jsLower).map id :=
        List.map_congr_left (fun y hy => jsLower_fixed_of_lower (hmapped y hy).2)
      rw [hcongr, List.map_id]
    unfold toKebabCase_str toKebabCaseRP
    rw [hwords2]
    show jsJoin ['-'] (((w :: ws).map jsLower).map jsLower)
        = jsJoin ['-'] ((w :: ws).map jsLower)
    rw [hfix]

theorem claim9_witness :
    (∀ c ∈ strL "Foo Bar", c.toNat < 128) ∧
      toKebabCase_str (toKebabCase_str (strL "Foo Bar"))
        = toKebabCase_str (strL "Foo Bar") :=
  ⟨by decide, claim9_amended (strL "Foo Bar") (by decide)⟩

end AnythinkCase
